import Mathlib

/-!
Verification development for the documentation search engine of
`strands-doc-assistant` (`docs_processor.py`, `app.py`, `simplified_app.py`).

Strings are modelled as `List Char` (`Str`).  Python's per-character string
operations (`str.lower`, `str.split`, `str.count`, `in`, slicing) are embedded
as executable Lean functions below; character-level lowering and the `\w` /
whitespace classes are modelled over ASCII, which is the alphabet exercised by
every concrete input in this file.  The filesystem is modelled as a walk list
of `(relative path, mtime)` entries plus a read function `Str → Option Str`
(`none` models an `open`/`read`/decode exception caught by the code's
`try`/`except`).  Recursive scanners carry an explicit fuel argument equal to
the input length so that every definition is structurally recursive and
evaluable by `decide`.
-/

namespace DocAssist

/-- Python strings, modelled as lists of characters. -/
abbrev Str := List Char

/-- ASCII whitespace, the character class Python's `str.split()` and the
regex class `\s` split on (for the ASCII fragment). -/
def isSpaceCh (c : Char) : Bool :=
  c = ' ' || c = '\t' || c = '\n' || c = '\r' || c = '\x0b' || c = '\x0c'

/-- The regex class `\w` (ASCII fragment): letters, digits, underscore. -/
def isWordCh (c : Char) : Bool :=
  c.isAlphanum || c = '_'

/-- `str.lower()`, character-wise (ASCII). -/
def lowerStr (s : Str) : Str := s.map Char.toLower

/-- Maximal runs of characters satisfying `p`, fuelled scanner.
With fuel `≥` the length of the input this computes the runs exactly;
it models both `str.split()` (runs of non-whitespace) and
`re.findall(r'\b\w+\b', s)` (runs of word characters). -/
def tokensByF (p : Char → Bool) : Nat → Str → List Str
  | 0, _ => []
  | _ + 1, [] => []
  | fuel + 1, c :: rest =>
    if p c then
      ((c :: rest).takeWhile p) :: tokensByF p fuel ((c :: rest).dropWhile p)
    else
      tokensByF p fuel rest

/-- Maximal runs of characters satisfying `p`. -/
def tokensBy (p : Char → Bool) (s : Str) : List Str :=
  tokensByF p s.length s

/-- `s.split()` with no separator argument: runs of non-whitespace. -/
def splitWs (s : Str) : List Str :=
  tokensBy (fun c => !(isSpaceCh c)) s

/-- `re.findall(r'\b\w+\b', s)`: maximal runs of word characters. -/
def pyWords (s : Str) : List Str :=
  tokensBy isWordCh s

/-- Python's substring test `needle in hay`. -/
def containsSub (n : Str) : Str → Bool
  | [] => n.isEmpty
  | c :: rest => n.isPrefixOf (c :: rest) || containsSub n rest

/-- Fuelled scanner for Python's `hay.count(needle)` with a non-empty needle:
non-overlapping occurrences, scanning left to right and skipping
`len(needle)` characters over each match. -/
def countAuxF : Nat → Str → Str → Nat
  | 0, _, _ => 0
  | _ + 1, _, [] => 0
  | fuel + 1, needle, c :: rest =>
    if needle.isPrefixOf (c :: rest) then
      1 + countAuxF fuel needle ((c :: rest).drop needle.length)
    else
      countAuxF fuel needle rest

/-- Python's `hay.count(needle)`: non-overlapping substring occurrences;
`hay.count("")` is `len(hay) + 1`. -/
def countOccs (needle hay : Str) : Nat :=
  if needle.isEmpty then hay.length + 1 else countAuxF (hay.length + 1) needle hay

/-- `s.endswith(pat)`. -/
def endsWithStr (pat s : Str) : Bool := pat.isSuffixOf s

/-- The file-extension allow-list test
`file.endswith(('.md', '.txt', '.html'))` from `index_documentation`
(`docs_processor.py` line 46) and the identical checks in `app.py` line 109
and `simplified_app.py` line 67. -/
def eligible (relPath : Str) : Bool :=
  endsWithStr ".md".data relPath || endsWithStr ".txt".data relPath ||
    endsWithStr ".html".data relPath

/-- `os.path.join(docsPath, relPath)` (POSIX, docsPath without trailing
separator). -/
def joinPath (docsPath relPath : Str) : Str := docsPath ++ '/' :: relPath

/-- `os.path.basename(p)` (POSIX): the part after the last `/`. -/
def basename (p : Str) : Str :=
  (p.reverse.takeWhile (fun c => c != '/')).reverse

/-- The document id of `_process_file` (`docs_processor.py` line 87):
`os.path.relpath(file_path, docs_path).replace('/', '_').replace('\\', '_')`,
as a function of the path relative to the document root. -/
def fileId (relPath : Str) : Str :=
  (relPath.map (fun c => if c = '/' then '_' else c)).map
    (fun c => if c = '\\' then '_' else c)

/-- The capture `(.+)` of the title regex: the maximal run of
non-newline characters. -/
def takeLine (s : Str) : Str := s.takeWhile (fun c => c != '\n')

/-- Match `\s*(.+)$` at the start of `s` (greedy `\s*` with backtracking),
returning the capture of `(.+)`. -/
def matchSpacesLine : Str → Option Str
  | [] => none
  | c :: rest =>
    if isSpaceCh c then
      match matchSpacesLine rest with
      | some t => some t
      | none => if c = '\n' then none else some (takeLine (c :: rest))
    else if c = '\n' then none else some (takeLine (c :: rest))

/-- Match `\s+(.+)$` at the start of `s`. -/
def matchAfterHash : Str → Option Str
  | [] => none
  | c :: rest => if isSpaceCh c then matchSpacesLine rest else none

/-- Scan for the leftmost match of `^#\s+(.+)$` (`re.MULTILINE`); the Bool
records whether the current position is a line start. -/
def findTitleGo : Str → Bool → Option Str
  | [], _ => none
  | c :: rest, atStart =>
    if atStart ∧ c = '#' then
      match matchAfterHash rest with
      | some t => some t
      | none => findTitleGo rest false
    else
      findTitleGo rest (c = '\n')

/-- `re.search(r'^#\s+(.+)$', content, re.MULTILINE)`, returning `group(1)`
of the first match (`docs_processor.py` lines 82-84). -/
def findTitle (content : Str) : Option Str := findTitleGo content true

/-- Title extraction of `_process_file` (lines 79-84): the basename of the
file path, overridden by the first markdown heading for `.md` files. -/
def titleOf (fullPath content : Str) : Str :=
  if endsWithStr ".md".data fullPath then
    match findTitle content with
    | some t => t
    | none => basename fullPath
  else basename fullPath

/-- One step of the word-frequency dict of `_process_file` (lines 91-94):
`word_freq[word] = word_freq.get(word, 0) + 1`, with Python-3.7 dict
insertion-order semantics modelled as an ordered association list. -/
def dictIncr (d : List (Str × Nat)) (w : Str) : List (Str × Nat) :=
  if d.any (fun q => q.1 == w) then
    d.map (fun q => if q.1 == w then (q.1, q.2 + 1) else q)
  else d ++ [(w, 1)]

/-- Stable descending insertion by the key `s`: the inserted element goes
before every existing element whose key is `≤` its own. -/
def insDesc {α : Type} (s : α → Nat) (x : α) : List α → List α
  | [] => [x]
  | y :: ys => if s y ≤ s x then x :: y :: ys else y :: insDesc s x ys

/-- `sorted(l, key=s, reverse=True)`: Python's sort is stable, and a stable
sort of a list under a fixed key order is unique, so insertion sort with
stable placement models it exactly. -/
def sortDesc {α : Type} (s : α → Nat) (l : List α) : List α :=
  l.foldr (insDesc s) []

/-- Keyword extraction of `_process_file` (lines 89-98): count words of
length `> 3` in the lowercased content, rank by frequency descending
(`sorted(..., reverse=True)`, stable), keep the top 20 keys. -/
def keywordsOf (content : Str) : List Str :=
  let words := pyWords (lowerStr content)
  let freq := words.foldl (fun d w => if 3 < w.length then dictIncr d w else d) []
  ((sortDesc (fun q => q.2) freq).take 20).map (fun q => q.1)

/-- The `file_info` record built by `_process_file` (lines 101-107). -/
structure FileInfo where
  id : Str
  path : Str
  title : Str
  size : Nat
  modified : Int
deriving DecidableEq, Repr

/-- The in-memory index `{"files": [...], "keywords": {...}}` of
`DocumentationProcessor` (lines 34-37); the keyword dict is modelled as an
insertion-ordered association list, posting lists as Python lists of ids. -/
structure PyIndex where
  files : List FileInfo
  keywords : List (Str × List Str)
deriving DecidableEq, Repr

/-- `_process_file` for one walk entry: the file-info record for a file at
`relPath` under `docsPath` with the given content and mtime.  The timestamp
`os.path.getmtime` is supplied by the walk, modelled as an integer. -/
def mkFileInfo (docsPath relPath : Str) (content : Str) (mtime : Int) : FileInfo :=
  { id := fileId relPath
  , path := joinPath docsPath relPath
  , title := titleOf (joinPath docsPath relPath) content
  , size := content.length
  , modified := mtime }

/-- Posting-list update of `index_documentation` (lines 56-59):
create the keyword's list if absent, then append the document id. -/
def addPosting (m : List (Str × List Str)) (kw : Str) (docId : Str) :
    List (Str × List Str) :=
  if m.any (fun q => q.1 == kw) then
    m.map (fun q => if q.1 == kw then (q.1, q.2 ++ [docId]) else q)
  else m ++ [(kw, [docId])]

/-- One iteration of the walk loop of `index_documentation` (lines 44-61):
skip non-eligible names; a failed read (`none`) is caught and skipped;
otherwise append the file info and add a posting for each keyword. -/
def idxStep (docsPath : Str) (fs : Str → Option Str) (idx : PyIndex)
    (e : Str × Int) : PyIndex :=
  if eligible e.1 then
    match fs (joinPath docsPath e.1) with
    | some content =>
      let fi := mkFileInfo docsPath e.1 content e.2
      { files := idx.files ++ [fi]
      , keywords := (keywordsOf content).foldl
          (fun m kw => addPosting m kw fi.id) idx.keywords }
    | none => idx
  else idx

/-- `DocumentationProcessor.index_documentation` (lines 27-63) over a walk
(list of `(path relative to the root, mtime)` in discovery order) and a read
function.  A root that does not exist is created empty (line 40-41), which
is the empty walk. -/
def indexDocumentation (docsPath : Str) (walk : List (Str × Int))
    (fs : Str → Option Str) : PyIndex :=
  walk.foldl (idxStep docsPath fs) ⟨[], []⟩

/-- The preview expression shared by all three search implementations:
`content[:200] + "..." if len(content) > 200 else content`
(`docs_processor.py` line 147, `app.py` line 120, `simplified_app.py`
line 78). -/
def previewStr (content : Str) : Str :=
  if 200 < content.length then content.take 200 ++ "...".data else content

/-- A result dict of `DocumentationProcessor.search` (lines 143-148):
`{"file", "title", "score", "preview"}`. -/
structure SearchResult where
  file : Str
  title : Str
  score : Nat
  preview : Str
deriving DecidableEq, Repr

/-- A result dict of `DocumentationAssistant.search_docs` /
`DocumentSearchTool._execute` (`simplified_app.py` lines 75-79, `app.py`
lines 117-121): `{"file", "score", "preview"}`. -/
structure ScanResult where
  file : Str
  score : Nat
  preview : Str
deriving DecidableEq, Repr

/-- The per-document score of `DocumentationProcessor.search`
(lines 137-139): the sum over the whitespace-split lowercased query terms of
`content.count(term)` on the lowercased content `lc`. -/
def procScore (q : Str) (lc : Str) : Nat :=
  (splitWs (lowerStr q)).foldl (fun s t => s + countOccs t lc) 0

/-- One iteration of the file loop of `DocumentationProcessor.search`
(lines 129-150): re-read the file (a failed read is caught and skipped),
lowercase it, score it, and append a result when the score is positive. -/
def procStep (fs : Str → Option Str) (q : Str) (acc : List SearchResult)
    (fi : FileInfo) : List SearchResult :=
  match fs fi.path with
  | some raw =>
    let lc := lowerStr raw
    let score := procScore q lc
    if 0 < score then
      acc ++ [{ file := fi.path, title := fi.title, score := score
              , preview := previewStr lc }]
    else acc
  | none => acc

/-- The unsorted result list of `DocumentationProcessor.search`
(lines 125-150), in index-file order. -/
def searchProcAll (idx : PyIndex) (fs : Str → Option Str) (q : Str) :
    List SearchResult :=
  idx.files.foldl (procStep fs q) []

/-- `DocumentationProcessor.search` (lines 111-154):
`sorted(results, key=score, reverse=True)[:max_results]`. -/
def searchProc (idx : PyIndex) (fs : Str → Option Str) (q : Str)
    (maxResults : Nat) : List SearchResult :=
  (sortDesc (fun r => r.score) (searchProcAll idx fs q)).take maxResults

/-- One iteration of the walk loop of `search_docs` (`simplified_app.py`
lines 65-81; identically `app.py` lines 107-124): for an eligible readable
file, append a result when the lowercased query occurs in the lowercased
content, scored by `content.lower().count(query.lower())`; the preview uses
the raw content. -/
def scanStep (docsPath : Str) (fs : Str → Option Str) (q : Str)
    (acc : List ScanResult) (e : Str × Int) : List ScanResult :=
  if eligible e.1 then
    match fs (joinPath docsPath e.1) with
    | some content =>
      if containsSub (lowerStr q) (lowerStr content) then
        acc ++ [{ file := joinPath docsPath e.1
                , score := countOccs (lowerStr q) (lowerStr content)
                , preview := previewStr content }]
      else acc
    | none => acc
  else acc

/-- The unsorted result list of `search_docs`, in walk order. -/
def searchScanAll (docsPath : Str) (walk : List (Str × Int))
    (fs : Str → Option Str) (q : Str) : List ScanResult :=
  walk.foldl (scanStep docsPath fs q) []

/-- `DocumentationAssistant.search_docs` (`simplified_app.py` lines 51-85):
direct-scan search, `sorted(results, key=score, reverse=True)[:max_results]`. -/
def searchScan (docsPath : Str) (walk : List (Str × Int))
    (fs : Str → Option Str) (q : Str) (maxResults : Nat) : List ScanResult :=
  (sortDesc (fun r => r.score) (searchScanAll docsPath walk fs q)).take maxResults

/-! ### Persisted index (`save_index` / `load_index`)

`save_index` (lines 156-167) writes `json.dump(self.index)`; `load_index`
(lines 169-185) reads it back with `json.load`.  The in-memory index is a
tree of dicts, lists, strings and numbers, and the `json` standard library
(an external collaborator) maps such a tree to text and back losslessly,
preserving dict insertion order.  We therefore model the on-disk
representation as the JSON *tree* and `save`/`load` as the conversion
between the typed `PyIndex` and that tree; timestamps are modelled as
integers. -/

/-- A JSON value, as produced by `json.dump` / consumed by `json.load`. -/
inductive JVal where
  | jstr : Str → JVal
  | jnum : Int → JVal
  | jarr : List JVal → JVal
  | jobj : List (String × JVal) → JVal

/-- The JSON object `save_index` writes for one entry of `index["files"]`. -/
def encodeFileInfo (fi : FileInfo) : JVal :=
  .jobj [("id", .jstr fi.id), ("path", .jstr fi.path), ("title", .jstr fi.title),
         ("size", .jnum fi.size), ("modified", .jnum fi.modified)]

/-- Reading one entry of `index["files"]` back from the loaded tree. -/
def decodeFileInfo : JVal → Option FileInfo
  | .jobj [("id", .jstr i), ("path", .jstr p), ("title", .jstr t),
           ("size", .jnum s), ("modified", .jnum m)] =>
    some { id := i, path := p, title := t, size := s.toNat, modified := m }
  | _ => none

/-- Decode every element of a list, failing if any element fails. -/
def decodeEach {α : Type} (f : JVal → Option α) : List JVal → Option (List α)
  | [] => some []
  | v :: vs =>
    match f v, decodeEach f vs with
    | some a, some rest => some (a :: rest)
    | _, _ => none

/-- One entry of the `index["keywords"]` JSON object. -/
def encodeKeyword (p : Str × List Str) : String × JVal :=
  (String.mk p.1, .jarr (p.2.map .jstr))

/-- A JSON string. -/
def decodeStrJ : JVal → Option Str
  | .jstr s => some s
  | _ => none

/-- Reading one entry of `index["keywords"]` back. -/
def decodeKeyword (p : String × JVal) : Option (Str × List Str) :=
  match p.2 with
  | .jarr vs => (decodeEach decodeStrJ vs).map (fun ids => (p.1.data, ids))
  | _ => none

/-- Decode every object entry, failing if any fails. -/
def decodeEachKw : List (String × JVal) → Option (List (Str × List Str))
  | [] => some []
  | p :: ps =>
    match decodeKeyword p, decodeEachKw ps with
    | some a, some rest => some (a :: rest)
    | _, _ => none

/-- The JSON tree written by `save_index` (line 167, `json.dump(self.index)`). -/
def encodeIndex (idx : PyIndex) : JVal :=
  .jobj [("files", .jarr (idx.files.map encodeFileInfo)),
         ("keywords", .jobj (idx.keywords.map encodeKeyword))]

/-- The typed reading of the tree returned by `json.load` in `load_index`
(line 181). -/
def decodeIndex : JVal → Option PyIndex
  | .jobj [("files", .jarr fvs), ("keywords", .jobj kvs)] =>
    match decodeEach decodeFileInfo fvs, decodeEachKw kvs with
    | some fis, some kws => some { files := fis, keywords := kws }
    | _, _ => none
  | _ => none

/-- The per-entry outcome of the indexing loop: the file record each
eligible, readable walk entry contributes. -/
def gIdx (docsPath : Str) (fs : Str → Option Str) (e : Str × Int) :
    Option FileInfo :=
  if eligible e.1 then
    (fs (joinPath docsPath e.1)).map (fun c => mkFileInfo docsPath e.1 c e.2)
  else none

/-- The per-file outcome of the `DocumentationProcessor.search` loop. -/
def gProc (fs : Str → Option Str) (q : Str) (fi : FileInfo) :
    Option SearchResult :=
  (fs fi.path).bind (fun raw =>
    if 0 < procScore q (lowerStr raw) then
      some { file := fi.path, title := fi.title
           , score := procScore q (lowerStr raw)
           , preview := previewStr (lowerStr raw) }
    else none)

/-- The per-entry outcome of the `search_docs` walk loop. -/
def gScan (docsPath : Str) (fs : Str → Option Str) (q : Str) (e : Str × Int) :
    Option ScanResult :=
  if eligible e.1 then
    (fs (joinPath docsPath e.1)).bind (fun c =>
      if containsSub (lowerStr q) (lowerStr c) then
        some { file := joinPath docsPath e.1
             , score := countOccs (lowerStr q) (lowerStr c)
             , preview := previewStr c }
      else none)
  else none

/-- The distinct elements of a list, in first-occurrence order. -/
def firstOccurs : List Str → List Str
  | [] => []
  | w :: ws => w :: (firstOccurs ws).filter (fun v => !(v == w))

/-- The spec's description of the frequency table: distinct tokens in
first-occurrence order, each paired with its raw in-document frequency. -/
def specDict (ws : List Str) : List (Str × Nat) :=
  (firstOccurs ws).map (fun w => (w, ws.count w))

/-- The keyword list as the spec states it: tokens of length `> 3`, ranked
by in-document frequency descending, ties in first-occurrence order (the
stable sort of the first-occurrence table), truncated to the top 20. -/
def specKeywords (content : Str) : List Str :=
  let toks := (pyWords (lowerStr content)).filter (fun w => decide (3 < w.length))
  ((sortDesc (fun q => q.2) (specDict toks)).take 20).map (fun q => q.1)

/-- The C10 invariant for an in-memory index. -/
def idxInv (idx : PyIndex) : Prop :=
  ∀ kw ids, (kw, ids) ∈ idx.keywords → ∀ i ∈ ids,
    ∃ fi, fi ∈ idx.files ∧ fi.id = i

/-! ### Concrete fixtures used by witnesses and counterexamples -/

/-- A one-file root: `d/a.md` with content `"a b"`. -/
def exFs1 : Str → Option Str := fun p =>
  if p = "d/a.md".data then some "a b".data else none

def exWalk1 : List (Str × Int) := [("a.md".data, 0)]

def exIdx1 : PyIndex := indexDocumentation "d".data exWalk1 exFs1

def exFi1 : FileInfo :=
  { id := "a.md".data, path := "d/a.md".data, title := "a.md".data
  , size := 3, modified := 0 }

/-- A one-file root: `d/a.md` with content `"A"` (uppercase). -/
def exFs2 : Str → Option Str := fun p =>
  if p = "d/a.md".data then some "A".data else none

def exIdx2 : PyIndex := indexDocumentation "d".data exWalk1 exFs2

def exRes2 : SearchResult :=
  { file := "d/a.md".data, title := "a.md".data, score := 1, preview := "a".data }

/-- A one-file root: `d/x.md` with content `"x y"`. -/
def exFs3 : Str → Option Str := fun p =>
  if p = "d/x.md".data then some "x y".data else none

def exWalk3 : List (Str × Int) := [("x.md".data, 0)]

/-- Two colliding paths `a/b.md` and `a_b.md`, both containing `"word"`. -/
def exFs4 : Str → Option Str := fun p =>
  if p = "d/a/b.md".data then some "word".data
  else if p = "d/a_b.md".data then some "word".data else none

def exWalk4 : List (Str × Int) := [("a/b.md".data, 0), ("a_b.md".data, 0)]

/-! ### Properties of the stable descending sort -/

section SortLemmas

variable {α : Type} (s : α → Nat)

theorem insDesc_perm (x : α) (l : List α) : (insDesc s x l).Perm (x :: l) := by
  induction l with
  | nil => simp [insDesc]
  | cons y ys ih =>
    simp only [insDesc]
    split
    · exact List.Perm.refl _
    · exact ((ih.cons y).trans (List.Perm.swap x y ys))

theorem sortDesc_perm (l : List α) : (sortDesc s l).Perm l := by
  induction l with
  | nil => simp [sortDesc]
  | cons x xs ih =>
    have h1 : (insDesc s x (sortDesc s xs)).Perm (x :: sortDesc s xs) :=
      insDesc_perm s x (sortDesc s xs)
    exact h1.trans (ih.cons x)

theorem insDesc_pairwise (x : α) (l : List α)
    (h : l.Pairwise (fun a b => s b ≤ s a)) :
    (insDesc s x l).Pairwise (fun a b => s b ≤ s a) := by
  induction l with
  | nil => simp [insDesc]
  | cons y ys ih =>
    rcases List.pairwise_cons.mp h with ⟨hy, hys⟩
    simp only [insDesc]
    split
    · rename_i hle
      refine List.pairwise_cons.mpr ⟨?_, h⟩
      intro z hz
      rcases List.mem_cons.mp hz with rfl | hz
      · exact hle
      · exact le_trans (hy z hz) hle
    · rename_i hgt
      push_neg at hgt
      refine List.pairwise_cons.mpr ⟨?_, ih hys⟩
      intro z hz
      have hz2 := (insDesc_perm s x ys).mem_iff.mp hz
      rcases List.mem_cons.mp hz2 with rfl | hz3
      · exact le_of_lt hgt
      · exact hy z hz3

theorem sortDesc_pairwise (l : List α) :
    (sortDesc s l).Pairwise (fun a b => s b ≤ s a) := by
  induction l with
  | nil => simp [sortDesc]
  | cons x xs ih => exact insDesc_pairwise s x (sortDesc s xs) ih

theorem insDesc_filter_eq (x : α) (l : List α) (k : Nat) (hx : s x = k) :
    (insDesc s x l).filter (fun y => s y == k) =
      x :: l.filter (fun y => s y == k) := by
  induction l with
  | nil => simp [insDesc, List.filter, hx]
  | cons y ys ih =>
    simp only [insDesc]
    split
    · simp [List.filter, hx]
    · rename_i hgt
      push_neg at hgt
      have hy : (s y == k) = false := by
        simp only [beq_eq_false_iff_ne, ne_eq]
        omega
      simp [List.filter, hy, ih]

theorem insDesc_filter_ne (x : α) (l : List α) (k : Nat) (hx : s x ≠ k) :
    (insDesc s x l).filter (fun y => s y == k) =
      l.filter (fun y => s y == k) := by
  have hx2 : (s x == k) = false := by
    simpa using hx
  induction l with
  | nil => simp [insDesc, List.filter, hx2]
  | cons y ys ih =>
    simp only [insDesc]
    split
    · simp [List.filter, hx2]
    · simp only [List.filter_cons]
      split <;> simp [ih]

/-- Stability of the sort: within each score class the sorted list keeps the
original order. -/
theorem sortDesc_filter (l : List α) (k : Nat) :
    (sortDesc s l).filter (fun y => s y == k) =
      l.filter (fun y => s y == k) := by
  induction l with
  | nil => simp [sortDesc]
  | cons x xs ih =>
    show (insDesc s x (sortDesc s xs)).filter _ = _
    by_cases hx : s x = k
    · rw [insDesc_filter_eq s x _ k hx, ih]
      simp [List.filter_cons, hx]
    · rw [insDesc_filter_ne s x _ k hx, ih]
      simp [List.filter_cons, hx]

theorem insDesc_map {β : Type} (g : α → β) (t : β → Nat)
    (hg : ∀ a, t (g a) = s a) (x : α) (l : List α) :
    (insDesc s x l).map g = insDesc t (g x) (l.map g) := by
  induction l with
  | nil => simp [insDesc]
  | cons y ys ih =>
    simp only [insDesc, List.map_cons, hg]
    split <;> simp [List.map_cons, ih]

theorem sortDesc_map {β : Type} (g : α → β) (t : β → Nat)
    (hg : ∀ a, t (g a) = s a) (l : List α) :
    (sortDesc s l).map g = sortDesc t (l.map g) := by
  induction l with
  | nil => simp [sortDesc]
  | cons x xs ih =>
    show (insDesc s x (sortDesc s xs)).map g = _
    rw [insDesc_map s g t hg, ih]
    rfl

end SortLemmas

/-! ### Loop characterizations -/

theorem idxStep_files (docsPath : Str) (fs : Str → Option Str)
    (idx : PyIndex) (e : Str × Int) :
    (idxStep docsPath fs idx e).files = idx.files ++ (gIdx docsPath fs e).toList := by
  unfold idxStep gIdx
  split
  · cases fs (joinPath docsPath e.1) <;> simp
  · simp

theorem foldl_idxStep_files (docsPath : Str) (fs : Str → Option Str)
    (walk : List (Str × Int)) (idx : PyIndex) :
    (walk.foldl (idxStep docsPath fs) idx).files =
      idx.files ++ walk.filterMap (gIdx docsPath fs) := by
  induction walk generalizing idx with
  | nil => simp
  | cons e es ih =>
    rw [List.foldl_cons, ih, idxStep_files, List.filterMap_cons]
    cases gIdx docsPath fs e <;> simp

/-- The `files` list of the built index: exactly one record per eligible,
readable walk entry, in walk order. -/
theorem indexDocumentation_files (docsPath : Str) (walk : List (Str × Int))
    (fs : Str → Option Str) :
    (indexDocumentation docsPath walk fs).files =
      walk.filterMap (gIdx docsPath fs) := by
  unfold indexDocumentation
  rw [foldl_idxStep_files]
  rfl

theorem procStep_eq (fs : Str → Option Str) (q : Str)
    (acc : List SearchResult) (fi : FileInfo) :
    procStep fs q acc fi = acc ++ (gProc fs q fi).toList := by
  unfold procStep gProc
  cases fs fi.path with
  | none => simp
  | some raw =>
    simp only [Option.bind_some]
    split <;> simp_all

theorem searchProcAll_eq (idx : PyIndex) (fs : Str → Option Str) (q : Str) :
    searchProcAll idx fs q = idx.files.filterMap (gProc fs q) := by
  unfold searchProcAll
  suffices h : ∀ (fl : List FileInfo) (acc : List SearchResult),
      fl.foldl (procStep fs q) acc = acc ++ fl.filterMap (gProc fs q) by
    simpa using h idx.files []
  intro fl
  induction fl with
  | nil => simp
  | cons fi fis ih =>
    intro acc
    rw [List.foldl_cons, ih, procStep_eq, List.filterMap_cons]
    cases gProc fs q fi <;> simp

theorem scanStep_eq (docsPath : Str) (fs : Str → Option Str) (q : Str)
    (acc : List ScanResult) (e : Str × Int) :
    scanStep docsPath fs q acc e = acc ++ (gScan docsPath fs q e).toList := by
  unfold scanStep gScan
  split
  · cases fs (joinPath docsPath e.1) with
    | none => simp
    | some c =>
      simp only [Option.bind_some]
      split <;> simp_all
  · simp

theorem searchScanAll_eq (docsPath : Str) (walk : List (Str × Int))
    (fs : Str → Option Str) (q : Str) :
    searchScanAll docsPath walk fs q = walk.filterMap (gScan docsPath fs q) := by
  unfold searchScanAll
  suffices h : ∀ (w : List (Str × Int)) (acc : List ScanResult),
      w.foldl (scanStep docsPath fs q) acc = acc ++ w.filterMap (gScan docsPath fs q) by
    simpa using h walk []
  intro w
  induction w with
  | nil => simp
  | cons e es ih =>
    intro acc
    rw [List.foldl_cons, ih, scanStep_eq, List.filterMap_cons]
    cases gScan docsPath fs q e <;> simp

/-! ### Substring counting versus the substring test -/

theorem containsSub_correct (n h : Str) : containsSub n h = true ↔ n <:+: h := by
  induction h with
  | nil =>
    simp only [containsSub, List.isEmpty_iff, List.infix_nil]
  | cons c rest ih =>
    simp only [containsSub, Bool.or_eq_true, List.isPrefixOf_iff_prefix, ih,
      List.infix_cons_iff]

theorem countAuxF_pos_iff (n : Str) (hn : n ≠ []) :
    ∀ (fuel : Nat) (h : Str), h.length < fuel →
      (0 < countAuxF fuel n h ↔ containsSub n h = true) := by
  intro fuel
  induction fuel with
  | zero => intro h hlen; omega
  | succ f ih =>
    intro h hlen
    cases h with
    | nil =>
      simp [countAuxF, containsSub, hn]
    | cons c rest =>
      simp only [countAuxF, containsSub]
      by_cases hp : n.isPrefixOf (c :: rest) = true
      · simp [hp]
      · have hp2 : n.isPrefixOf (c :: rest) = false := by
          simp only [Bool.not_eq_true] at hp
          exact hp
        have hrest : rest.length < f := by
          simpa using Nat.lt_of_succ_lt_succ hlen
        simp [hp2, ih rest hrest]

theorem countOccs_pos_iff (n h : Str) :
    0 < countOccs n h ↔ containsSub n h = true := by
  unfold countOccs
  by_cases hn : n = []
  · subst hn
    cases h <;> simp [containsSub]
  · have hne : n.isEmpty = false := by
      cases n with
      | nil => exact absurd rfl hn
      | cons a as => rfl
    rw [hne]
    simp only [Bool.false_eq_true, if_false]
    exact countAuxF_pos_iff n hn (h.length + 1) h (Nat.lt_succ_self _)

theorem countOccs_eq_zero_iff (n h : Str) :
    countOccs n h = 0 ↔ containsSub n h = false := by
  rw [← Bool.not_eq_true, ← countOccs_pos_iff]
  omega

/-- Every token produced by the fuelled scanner is a contiguous substring of
the input. -/
theorem tokensByF_token_contig (p : Char → Bool) :
    ∀ (fuel : Nat) (s t : Str), t ∈ tokensByF p fuel s → t <:+: s := by
  intro fuel
  induction fuel with
  | zero => intro s t ht; simp [tokensByF] at ht
  | succ f ih =>
    intro s t ht
    cases s with
    | nil => simp [tokensByF] at ht
    | cons c rest =>
      simp only [tokensByF] at ht
      by_cases hp : p c = true
      · rw [if_pos hp] at ht
        rcases List.mem_cons.mp ht with rfl | ht2
        · exact ( List.takeWhile_prefix p).isInfix
        · exact (ih _ t ht2).trans (List.dropWhile_suffix p).isInfix
      · rw [if_neg hp] at ht
        exact (ih rest t ht).trans (List.suffix_cons c rest).isInfix

/-- Every whitespace-split term of a query is a contiguous substring of the
query. -/
theorem splitWs_term_contig (q t : Str) (ht : t ∈ splitWs q) : t <:+: q :=
  tokensByF_token_contig _ _ q t ht

/-! ### The word-frequency dict as dedup-plus-count

`_process_file` builds `word_freq` by repeated `dict.get`/store; in
insertion-order semantics this is exactly: the distinct words in
first-occurrence order, each paired with its total count. -/

theorem mem_firstOccurs (l : List Str) (a : Str) :
    a ∈ firstOccurs l ↔ a ∈ l := by
  induction l with
  | nil => simp [firstOccurs]
  | cons w ws ih =>
    simp only [firstOccurs, List.mem_cons, List.mem_filter, ih,
      Bool.not_eq_eq_eq_not, Bool.not_true, beq_eq_false_iff_ne, ne_eq]
    constructor
    · rintro (rfl | ⟨h1, _⟩)
      · exact Or.inl rfl
      · exact Or.inr h1
    · rintro (rfl | h1)
      · exact Or.inl rfl
      · by_cases hw : a = w
        · exact Or.inl hw
        · exact Or.inr ⟨h1, hw⟩

theorem firstOccurs_snoc (l : List Str) (a : Str) :
    firstOccurs (l ++ [a]) =
      if a ∈ l then firstOccurs l else firstOccurs l ++ [a] := by
  induction l with
  | nil => simp [firstOccurs]
  | cons w ws ih =>
    have hl : firstOccurs ((w :: ws) ++ [a]) =
        w :: (firstOccurs (ws ++ [a])).filter (fun v => !(v == w)) := rfl
    have hr : firstOccurs (w :: ws) =
        w :: (firstOccurs ws).filter (fun v => !(v == w)) := rfl
    rw [hl, ih, hr]
    by_cases ha : a ∈ ws
    · rw [if_pos ha, if_pos (List.mem_cons_of_mem w ha)]
    · rw [if_neg ha]
      by_cases haw : a = w
      · subst haw
        rw [if_pos (List.mem_cons_self a ws), List.filter_append]
        simp
      · have hmem : a ∉ w :: ws := by simp [haw, ha]
        have hfa : (a == w) = false := by simpa using haw
        rw [if_neg hmem, List.filter_append]
        simp [hfa]

theorem dictIncr_specDict (ws : List Str) (w : Str) :
    dictIncr (specDict ws) w = specDict (ws ++ [w]) := by
  unfold dictIncr specDict
  rw [firstOccurs_snoc]
  by_cases hw : w ∈ ws
  · have hany : ((firstOccurs ws).map (fun v => (v, ws.count v))).any
        (fun q => q.1 == w) = true := by
      rw [List.any_eq_true]
      exact ⟨(w, ws.count w), List.mem_map.mpr
        ⟨w, (mem_firstOccurs ws w).mpr hw, rfl⟩, by simp⟩
    rw [if_pos hany, if_pos hw, List.map_map]
    apply List.map_congr_left
    intro v hv
    simp only [Function.comp_apply]
    by_cases hvw : v = w
    · subst hvw
      simp [List.count_append, List.count_cons]
    · have h1 : (v == w) = false := by simpa using hvw
      have h3 : (w == v) = false := by simpa using Ne.symm hvw
      simp [h1, List.count_append, List.count_cons, h3]
  · have hany : ((firstOccurs ws).map (fun v => (v, ws.count v))).any
        (fun q => q.1 == w) = false := by
      rw [Bool.eq_false_iff, ne_eq, List.any_eq_true]
      rintro ⟨q, hq, hbeq⟩
      rcases List.mem_map.mp hq with ⟨v, hv, rfl⟩
      simp only [beq_iff_eq] at hbeq
      exact hw (hbeq ▸ (mem_firstOccurs ws v).mp hv)
    rw [if_neg (by simp [hany]), if_neg hw, List.map_append]
    congr 1
    · apply List.map_congr_left
      intro v hv
      have hv2 : v ∈ ws := (mem_firstOccurs ws v).mp hv
      have hvw : v ≠ w := fun h => hw (h ▸ hv2)
      have h3 : (w == v) = false := by simpa using Ne.symm hvw
      simp [List.count_append, List.count_cons, h3]
    · have h0 : ws.count w = 0 := List.count_eq_zero.mpr hw
      simp [List.count_append, List.count_cons, h0]

/-- The dict-building loop of `_process_file` computes the spec's table. -/
theorem pyDict_eq_specDict (ws : List Str) :
    ws.foldl dictIncr [] = specDict ws := by
  induction ws using List.reverseRecOn with
  | nil => simp [specDict, firstOccurs]
  | append_singleton ws w ih =>
    rw [List.foldl_append, List.foldl_cons, List.foldl_nil, ih,
      dictIncr_specDict]

theorem foldl_dictIncr_filter (ws : List Str) :
    ∀ d, ws.foldl (fun d w => if 3 < w.length then dictIncr d w else d) d =
      (ws.filter (fun w => decide (3 < w.length))).foldl dictIncr d := by
  induction ws with
  | nil => intro d; rfl
  | cons w rest ih =>
    intro d
    rw [List.foldl_cons, List.filter_cons]
    by_cases hw : 3 < w.length
    · rw [if_pos hw, decide_eq_true hw, if_pos rfl, List.foldl_cons]
      exact ih _
    · rw [if_neg hw, decide_eq_false hw]
      simp only [Bool.false_eq_true, if_false]
      exact ih d

/-! ### Posting lists point into the files list -/

theorem addPosting_mem (m : List (Str × List Str)) (kw docId kw2 : Str)
    (ids2 : List Str) (h : (kw2, ids2) ∈ addPosting m kw docId) :
    ∀ i ∈ ids2, (∃ ids0, (kw2, ids0) ∈ m ∧ i ∈ ids0) ∨ i = docId := by
  intro i hi
  unfold addPosting at h
  split at h
  · rcases List.mem_map.mp h with ⟨q, hq, hqe⟩
    by_cases hqk : (q.1 == kw) = true
    · rw [if_pos hqk] at hqe
      have h1 : kw2 = q.1 := (Prod.mk.injEq .. ▸ hqe).1.symm
      have h2 : ids2 = q.2 ++ [docId] := (Prod.mk.injEq .. ▸ hqe).2.symm
      subst h1
      rw [h2] at hi
      rcases List.mem_append.mp hi with hi1 | hi2
      · exact Or.inl ⟨q.2, by simpa using hq, hi1⟩
      · exact Or.inr (by simpa using hi2)
    · rw [if_neg hqk] at hqe
      exact Or.inl ⟨ids2, hqe ▸ hq, hi⟩
  · rcases List.mem_append.mp h with h1 | h2
    · exact Or.inl ⟨ids2, h1, hi⟩
    · have h3 : kw2 = kw ∧ ids2 = [docId] := by
        simpa [Prod.ext_iff] using h2
      rw [h3.2] at hi
      exact Or.inr (by simpa using hi)

theorem foldl_addPosting_mem (docId : Str) (P : Str → Prop) :
    ∀ (kws : List Str) (m : List (Str × List Str)),
      (∀ kw2 ids2, (kw2, ids2) ∈ m → ∀ i ∈ ids2, P i) → P docId →
      ∀ kw2 ids2, (kw2, ids2) ∈ kws.foldl (fun m kw => addPosting m kw docId) m →
        ∀ i ∈ ids2, P i := by
  intro kws
  induction kws with
  | nil => intro m hm _; exact hm
  | cons kw rest ih =>
    intro m hm hP kw2 ids2 h2 i hi
    refine ih (addPosting m kw docId) ?_ hP kw2 ids2 (by simpa using h2) i hi
    intro kw3 ids3 h3 j hj
    rcases addPosting_mem m kw docId kw3 ids3 h3 j hj with ⟨ids0, h0, hj0⟩ | rfl
    · exact hm kw3 ids0 h0 j hj0
    · exact hP

theorem idxStep_inv (docsPath : Str) (fs : Str → Option Str) (idx : PyIndex)
    (e : Str × Int) (h : idxInv idx) : idxInv (idxStep docsPath fs idx e) := by
  unfold idxStep
  split
  · cases hread : fs (joinPath docsPath e.1) with
    | none => exact h
    | some content =>
      intro kw ids hmem i hi
      have hstep := foldl_addPosting_mem
        (mkFileInfo docsPath e.1 content e.2).id
        (fun j => ∃ fi, fi ∈ idx.files ++ [mkFileInfo docsPath e.1 content e.2] ∧
          fi.id = j)
        (keywordsOf content) idx.keywords
        (fun kw2 ids2 h2 j hj => by
          rcases h kw2 ids2 h2 j hj with ⟨fi, hfi, hfij⟩
          exact ⟨fi, List.mem_append_left _ hfi, hfij⟩)
        ⟨mkFileInfo docsPath e.1 content e.2,
          List.mem_append_right _ (List.mem_singleton.mpr rfl), rfl⟩
      exact hstep kw ids hmem i hi
  · exact h

theorem foldl_idxStep_inv (docsPath : Str) (fs : Str → Option Str) :
    ∀ (walk : List (Str × Int)) (idx : PyIndex), idxInv idx →
      idxInv (walk.foldl (idxStep docsPath fs) idx) := by
  intro walk
  induction walk with
  | nil => intro idx h; exact h
  | cons e es ih =>
    intro idx h
    exact ih _ (idxStep_inv docsPath fs idx e h)

/-! ### Round trip of the persisted index -/

theorem decodeFileInfo_encode (fi : FileInfo) :
    decodeFileInfo (encodeFileInfo fi) = some fi := rfl

theorem decodeEach_map_eq {α : Type} (f : JVal → Option α) (g : α → JVal)
    (l : List α) (h : ∀ x ∈ l, f (g x) = some x) :
    decodeEach f (l.map g) = some l := by
  induction l with
  | nil => rfl
  | cons x xs ih =>
    have hx : f (g x) = some x := h x (List.mem_cons_self x xs)
    have hxs : decodeEach f (xs.map g) = some xs :=
      ih (fun y hy => h y (List.mem_cons_of_mem x hy))
    simp only [List.map_cons, decodeEach, hx, hxs]

theorem decodeKeyword_encode (p : Str × List Str) :
    decodeKeyword (encodeKeyword p) = some p := by
  unfold decodeKeyword encodeKeyword
  simp only
  rw [decodeEach_map_eq decodeStrJ JVal.jstr p.2 (fun x _ => rfl)]
  rfl

theorem decodeEachKw_map (l : List (Str × List Str)) :
    decodeEachKw (l.map encodeKeyword) = some l := by
  induction l with
  | nil => rfl
  | cons p ps ih =>
    simp only [List.map_cons, decodeEachKw, decodeKeyword_encode p, ih]

/-! ### Result membership, scoring and exclusion lemmas -/

theorem mem_searchProc {idx : PyIndex} {fs : Str → Option Str} {q : Str}
    {n : Nat} {r : SearchResult} (h : r ∈ searchProc idx fs q n) :
    r ∈ searchProcAll idx fs q := by
  have h1 : r ∈ sortDesc (fun r => r.score) (searchProcAll idx fs q) :=
    List.mem_of_mem_take h
  exact (sortDesc_perm _ _).mem_iff.mp h1

theorem mem_searchScan {dp : Str} {walk : List (Str × Int)}
    {fs : Str → Option Str} {q : Str} {n : Nat} {r : ScanResult}
    (h : r ∈ searchScan dp walk fs q n) : r ∈ searchScanAll dp walk fs q := by
  have h1 : r ∈ sortDesc (fun r => r.score) (searchScanAll dp walk fs q) :=
    List.mem_of_mem_take h
  exact (sortDesc_perm _ _).mem_iff.mp h1

theorem gProc_some {fs : Str → Option Str} {q : Str} {fi : FileInfo}
    {r : SearchResult} (h : gProc fs q fi = some r) :
    ∃ raw, fs fi.path = some raw ∧ r.file = fi.path ∧ r.title = fi.title ∧
      r.score = procScore q (lowerStr raw) ∧
      r.preview = previewStr (lowerStr raw) ∧ 0 < r.score := by
  unfold gProc at h
  cases hr : fs fi.path with
  | none => rw [hr] at h; exact absurd h (by simp)
  | some raw =>
    rw [hr] at h
    rw [Option.some_bind] at h
    split at h
    · rename_i hpos
      cases h
      exact ⟨raw, rfl, rfl, rfl, rfl, rfl, hpos⟩
    · exact absurd h (by simp)

theorem gScan_some {dp : Str} {fs : Str → Option Str} {q : Str}
    {e : Str × Int} {r : ScanResult} (h : gScan dp fs q e = some r) :
    eligible e.1 = true ∧ ∃ c, fs (joinPath dp e.1) = some c ∧
      r.file = joinPath dp e.1 ∧
      r.score = countOccs (lowerStr q) (lowerStr c) ∧
      r.preview = previewStr c ∧
      containsSub (lowerStr q) (lowerStr c) = true := by
  unfold gScan at h
  split at h
  · rename_i helig
    cases hr : fs (joinPath dp e.1) with
    | none => rw [hr] at h; exact absurd h (by simp)
    | some c =>
      rw [hr] at h
      rw [Option.some_bind] at h
      split at h
      · rename_i hcont
        cases h
        exact ⟨helig, c, rfl, rfl, rfl, rfl, hcont⟩
      · exact absurd h (by simp)
  · exact absurd h (by simp)

theorem foldl_add_zero (f : Str → Nat) :
    ∀ (l : List Str) (acc : Nat), (∀ t ∈ l, f t = 0) →
      l.foldl (fun s t => s + f t) acc = acc := by
  intro l
  induction l with
  | nil => intro acc _; rfl
  | cons t ts ih =>
    intro acc h
    rw [List.foldl_cons, h t (List.mem_cons_self t ts), Nat.add_zero]
    exact ih acc (fun u hu => h u (List.mem_cons_of_mem t hu))

theorem procScore_zero {q c : Str}
    (h : ∀ t ∈ splitWs (lowerStr q), countOccs t (lowerStr c) = 0) :
    procScore q (lowerStr c) = 0 :=
  foldl_add_zero _ _ 0 h

theorem procScore_single {q : Str} (lc : Str)
    (h : splitWs (lowerStr q) = [lowerStr q]) :
    procScore q lc = countOccs (lowerStr q) lc := by
  unfold procScore
  rw [h, List.foldl_cons, List.foldl_nil, Nat.zero_add]

/-- When the query has at least one whitespace-split term and every term has
zero occurrences in the content, the whole query cannot occur as a substring
either (each term is a substring of the query). -/
theorem terms_zero_no_contains {q c : Str}
    (hne : splitWs (lowerStr q) ≠ [])
    (hz : ∀ t ∈ splitWs (lowerStr q), countOccs t (lowerStr c) = 0) :
    containsSub (lowerStr q) (lowerStr c) = false := by
  rcases List.exists_mem_of_ne_nil _ hne with ⟨t, ht⟩
  by_contra hcon
  have hcon2 : containsSub (lowerStr q) (lowerStr c) = true := by
    simpa using hcon
  have h1 : lowerStr q <:+: lowerStr c :=
    (containsSub_correct _ _).mp hcon2
  have h2 : t <:+: lowerStr q := splitWs_term_contig _ t ht
  have h3 : containsSub t (lowerStr c) = true :=
    (containsSub_correct _ _).mpr (h2.trans h1)
  have h4 : 0 < countOccs t (lowerStr c) := (countOccs_pos_iff _ _).mpr h3
  rw [hz t ht] at h4
  exact absurd h4 (by omega)



/-! ### Claim C1 -/

theorem gIdx_bind_gProc_eq_gScan (dp : Str) (fs : Str → Option Str) (q : Str)
    (h : splitWs (lowerStr q) = [lowerStr q]) (e : Str × Int) :
    ((gIdx dp fs e).bind (gProc fs q)).map (fun r => (r.file, r.score))
      = (gScan dp fs q e).map (fun r => (r.file, r.score)) := by
  unfold gIdx gScan
  by_cases helig : eligible e.1 = true
  · rw [if_pos helig, if_pos helig]
    cases hc : fs (joinPath dp e.1) with
    | none => rfl
    | some c =>
      rw [Option.map_some', Option.some_bind]
      unfold gProc
      have hpath : (mkFileInfo dp e.1 c e.2).path = joinPath dp e.1 := rfl
      rw [hpath, hc, Option.some_bind, Option.some_bind,
        procScore_single (lowerStr c) h]
      by_cases hcont : containsSub (lowerStr q) (lowerStr c) = true
      · have hpos : 0 < countOccs (lowerStr q) (lowerStr c) :=
          (countOccs_pos_iff _ _).mpr hcont
        rw [if_pos hpos, if_pos hcont]
        rfl
      · have hnpos : ¬ 0 < countOccs (lowerStr q) (lowerStr c) := by
          rw [countOccs_pos_iff]
          exact hcont
        rw [if_neg hnpos, if_neg hcont]
        rfl
  · rw [if_neg helig, if_neg helig]
    rfl

/-- Claim C1 (counterexample): on a root whose one file `a.md` contains
`"a b"`, the two-term query `"a b"` gets score 2 (the per-term sum) from
index-assisted `DocumentationProcessor.search` but score 1 from direct-scan
`search_docs`, which counts the whole query string; the claimed common
per-term scoring formula is therefore false for direct scan. -/
theorem C1_counterexample :
    (searchProc (indexDocumentation "d".data exWalk1 exFs1) exFs1 "a b".data 5).map
        (fun r => (r.file, r.score)) = [("d/a.md".data, 2)] ∧
    (searchScan "d".data exWalk1 exFs1 "a b".data 5).map
        (fun r => (r.file, r.score)) = [("d/a.md".data, 1)] ∧
    (2 : Nat) ≠ 1 := by
  refine ⟨by decide, by decide, by decide⟩

/-- Claim C1 (amended): when the lowercased query splits into exactly one
whitespace-delimited term equal to itself (a single-term query), the
index-assisted search over the index built from a walk and the direct scan
of the same walk return the same documents with the same scores, in the
same order.  For multi-term queries the modes differ: index-assisted search
sums per-term substring counts while direct scan counts the whole query. -/
theorem C1_single_term_modes_agree (dp : Str) (walk : List (Str × Int))
    (fs : Str → Option Str) (q : Str) (n : Nat)
    (h : splitWs (lowerStr q) = [lowerStr q]) :
    (searchProc (indexDocumentation dp walk fs) fs q n).map
        (fun r => (r.file, r.score))
      = (searchScan dp walk fs q n).map (fun r => (r.file, r.score)) := by
  unfold searchProc searchScan
  rw [List.map_take, List.map_take,
    sortDesc_map (fun (r : SearchResult) => r.score)
      (fun (r : SearchResult) => (r.file, r.score)) (fun p => p.2) (fun a => rfl),
    sortDesc_map (fun (r : ScanResult) => r.score)
      (fun (r : ScanResult) => (r.file, r.score)) (fun p => p.2) (fun a => rfl)]
  congr 1
  congr 1
  rw [searchProcAll_eq, indexDocumentation_files, searchScanAll_eq,
    List.filterMap_filterMap, List.map_filterMap, List.map_filterMap]
  have hfun : (fun e => ((gIdx dp fs e).bind (gProc fs q)).map
        (fun r => (r.file, r.score)))
      = (fun e => (gScan dp fs q e).map (fun r => (r.file, r.score))) :=
    funext (gIdx_bind_gProc_eq_gScan dp fs q h)
  rw [hfun]

/-- Claim C1 (witness): the amended equivalence at the single-term query
`"a"` over the `exFs1` root. -/
theorem C1_witness :
    (splitWs (lowerStr "a".data) = [lowerStr "a".data]) ∧
    (searchProc (indexDocumentation "d".data exWalk1 exFs1) exFs1 "a".data 5).map
        (fun r => (r.file, r.score))
      = (searchScan "d".data exWalk1 exFs1 "a".data 5).map
        (fun r => (r.file, r.score)) :=
  ⟨by decide, C1_single_term_modes_agree "d".data exWalk1 exFs1 "a".data 5 (by decide)⟩

/-! ### Claim C2 -/

/-- Claim C2: saving an index (`save_index`, modelled as the JSON tree
written by `json.dump`) and loading it back (`load_index` via `json.load`)
reproduces an index with identical document records (same fields, same
order) and an identical keyword-to-ids mapping (same keys, same id lists,
same order), for every index value, in particular every index produced by
indexing a directory. -/
theorem C2_roundtrip (idx : PyIndex) :
    decodeIndex (encodeIndex idx) = some idx := by
  have h1 : decodeEach decodeFileInfo (idx.files.map encodeFileInfo) =
      some idx.files :=
    decodeEach_map_eq _ _ _ (fun fi _ => decodeFileInfo_encode fi)
  have h2 : decodeEachKw (idx.keywords.map encodeKeyword) = some idx.keywords :=
    decodeEachKw_map idx.keywords
  simp only [encodeIndex, decodeIndex, h1, h2]

/-! ### Claim C3 -/

/-- Claim C3 (counterexample): the id function is not injective — the
distinct relative paths `a/b.md` and `a_b.md` produce the same id
`a_b.md`, because `/` is replaced by `_` and `_` may already occur in a
file name. -/
theorem C3_counterexample :
    fileId "a/b.md".data = fileId "a_b.md".data ∧
    "a/b.md".data ≠ "a_b.md".data := by
  refine ⟨by decide, by decide⟩

/-- Claim C3 (amended): the id is a deterministic function of the relative
path alone (independent of content, timestamp and indexing run), and it is
injective on relative paths that contain neither `_` nor `\`; in general
two distinct paths can collide (see the counterexample). -/
theorem C3_id_deterministic_and_restricted_injective :
    (∀ dp rp c mt, (mkFileInfo dp rp c mt).id = fileId rp) ∧
    (∀ p1 p2 : Str, (∀ ch ∈ p1, ch ≠ '_' ∧ ch ≠ '\\') →
      (∀ ch ∈ p2, ch ≠ '_' ∧ ch ≠ '\\') →
      fileId p1 = fileId p2 → p1 = p2) := by
  constructor
  · intro dp rp c mt
    rfl
  · intro p1
    induction p1 with
    | nil =>
      intro p2 _ _ hid
      cases p2 with
      | nil => rfl
      | cons c2 r2 => exact absurd hid (by simp [fileId])
    | cons c1 r1 ih =>
      intro p2 h1 h2 hid
      cases p2 with
      | nil => exact absurd hid (by simp [fileId])
      | cons c2 r2 =>
        have hc1 := h1 c1 (List.mem_cons_self c1 r1)
        have hc2 := h2 c2 (List.mem_cons_self c2 r2)
        simp only [fileId, List.map_cons, List.cons.injEq] at hid
        rcases hid with ⟨hchar, hrest⟩
        have hch : c1 = c2 := by
          by_cases d1 : c1 = '/'
          · by_cases d2 : c2 = '/'
            · rw [d1, d2]
            · exfalso
              rw [d1] at hchar
              rw [if_pos rfl, if_neg d2, if_neg hc2.2] at hchar
              by_cases du : ('_' : Char) = '\\'
              · exact absurd du (by decide)
              · rw [if_neg du] at hchar
                exact hc2.1 hchar.symm
          · by_cases d2 : c2 = '/'
            · exfalso
              rw [d2] at hchar
              rw [if_neg d1, if_neg hc1.2, if_pos rfl] at hchar
              by_cases du : ('_' : Char) = '\\'
              · exact absurd du (by decide)
              · rw [if_neg du] at hchar
                exact hc1.1 hchar
            · rw [if_neg d1, if_neg hc1.2, if_neg d2, if_neg hc2.2] at hchar
              exact hchar
        refine List.cons_eq_cons.mpr ⟨hch, ?_⟩
        refine ih r2 (fun ch hm => h1 ch (List.mem_cons_of_mem c1 hm))
          (fun ch hm => h2 ch (List.mem_cons_of_mem c2 hm)) ?_
        simpa [fileId] using hrest

/-- Claim C3 (witness): the amended statement applied to the
underscore-free path `sub/a.md`. -/
theorem C3_witness :
    (∀ ch ∈ "sub/a.md".data, ch ≠ '_' ∧ ch ≠ '\\') ∧
    "sub/a.md".data = "sub/a.md".data :=
  ⟨by decide,
    C3_id_deterministic_and_restricted_injective.2 "sub/a.md".data
      "sub/a.md".data (by decide) (by decide) rfl⟩

/-! ### Claim C4 -/

/-- Claim C4 (counterexample): for the root whose one file `a.md` has raw
content `"A"`, the single result of `DocumentationProcessor.search` for
query `"a"` has preview `"a"` — the first 200 characters of the LOWERCASED
content (`content = f.read().lower()` at line 135 is reused at line 147) —
whereas the claim demands the raw-content preview `"A"`. -/
theorem C4_counterexample :
    (searchProc (indexDocumentation "d".data exWalk1 exFs2) exFs2 "a".data 5).map
        (fun r => r.preview) = ["a".data] ∧
    previewStr "A".data = "A".data ∧
    "a".data ≠ "A".data := by
  refine ⟨by decide, by decide, by decide⟩

/-- Claim C4 (amended): every result of `DocumentationProcessor.search`
carries as preview the first 200 characters of the LOWERCASED re-read
content (ellipsis appended iff that content exceeds 200 characters), while
every result of the direct-scan tools (`app.py`, `simplified_app.py`)
carries the first 200 characters of the raw content; the ellipsis marker is
appended if and only if the content exceeds 200 characters. -/
theorem C4_preview_lowered_vs_raw :
    (∀ idx fs q n, ∀ r ∈ searchProc idx fs q n,
      ∃ c, fs r.file = some c ∧ r.preview = previewStr (lowerStr c)) ∧
    (∀ dp walk fs q n, ∀ r ∈ searchScan dp walk fs q n,
      ∃ c, fs r.file = some c ∧ r.preview = previewStr c) ∧
    (∀ c : Str, (c.length ≤ 200 → previewStr c = c) ∧
      (200 < c.length → previewStr c = c.take 200 ++ "...".data)) := by
  refine ⟨?_, ?_, ?_⟩
  · intro idx fs q n r hr
    have h1 : r ∈ searchProcAll idx fs q := mem_searchProc hr
    rw [searchProcAll_eq] at h1
    rcases List.mem_filterMap.mp h1 with ⟨fi, _, hfi⟩
    rcases gProc_some hfi with ⟨raw, hread, hfile, _, _, hprev, _⟩
    exact ⟨raw, hfile ▸ hread, hprev⟩
  · intro dp walk fs q n r hr
    have h1 : r ∈ searchScanAll dp walk fs q := mem_searchScan hr
    rw [searchScanAll_eq] at h1
    rcases List.mem_filterMap.mp h1 with ⟨e, _, he⟩
    rcases gScan_some he with ⟨_, c, hread, hfile, _, hprev, _⟩
    exact ⟨c, hfile ▸ hread, hprev⟩
  · intro c
    constructor
    · intro hle
      unfold previewStr
      rw [if_neg (by omega)]
    · intro hgt
      unfold previewStr
      rw [if_pos hgt]

/-- Claim C4 (witness): the amended statement applied to the concrete
result of searching `"a"` over the `exFs2` root. -/
theorem C4_witness :
    (exRes2 ∈ searchProc exIdx2 exFs2 "a".data 5) ∧
    ∃ c, exFs2 exRes2.file = some c ∧ exRes2.preview = previewStr (lowerStr c) :=
  ⟨by decide,
    C4_preview_lowered_vs_raw.1 exIdx2 exFs2 "a".data 5 exRes2 (by decide)⟩

/-! ### Claim C5 -/

theorem length_take_le {α : Type} (n : Nat) (l : List α) : (l.take n).length ≤ n := by
  rw [List.length_take]
  omega

/-- Claim C5: both search entry points return
`sorted(results, key=score, reverse=True)[:max_results]`: the positively
scored candidate list is sorted by score descending, the sort is a stable
permutation (ties keep discovery order: the elements of each score class
appear exactly as in the scan-order candidate list), truncation to the
caller's limit happens after sorting, at most `n` results are returned, and
exactly `n` are returned whenever at least `n` documents scored
positively. -/
theorem C5_ranking (idx : PyIndex) (fs : Str → Option Str) (q : Str) (n : Nat)
    (dp : Str) (walk : List (Str × Int)) (hn : 1 ≤ n) :
    (searchProc idx fs q n =
      (sortDesc (fun r => r.score) (searchProcAll idx fs q)).take n) ∧
    ((searchProc idx fs q n).length ≤ n) ∧
    ((sortDesc (fun r => r.score) (searchProcAll idx fs q)).Pairwise
      (fun a b => b.score ≤ a.score)) ∧
    ((sortDesc (fun r => r.score) (searchProcAll idx fs q)).Perm
      (searchProcAll idx fs q)) ∧
    (∀ k, (sortDesc (fun r => r.score) (searchProcAll idx fs q)).filter
        (fun r => r.score == k)
      = (searchProcAll idx fs q).filter (fun r => r.score == k)) ∧
    (n ≤ (searchProcAll idx fs q).length → (searchProc idx fs q n).length = n) ∧
    (searchScan dp walk fs q n =
      (sortDesc (fun r => r.score) (searchScanAll dp walk fs q)).take n) ∧
    ((searchScan dp walk fs q n).length ≤ n) ∧
    ((sortDesc (fun r => r.score) (searchScanAll dp walk fs q)).Pairwise
      (fun a b => b.score ≤ a.score)) ∧
    ((sortDesc (fun r => r.score) (searchScanAll dp walk fs q)).Perm
      (searchScanAll dp walk fs q)) ∧
    (∀ k, (sortDesc (fun r => r.score) (searchScanAll dp walk fs q)).filter
        (fun r => r.score == k)
      = (searchScanAll dp walk fs q).filter (fun r => r.score == k)) ∧
    (n ≤ (searchScanAll dp walk fs q).length →
      (searchScan dp walk fs q n).length = n) := by
  refine ⟨rfl, length_take_le n _, sortDesc_pairwise _ _, sortDesc_perm _ _,
    fun k => sortDesc_filter _ _ k, ?_, rfl, length_take_le n _,
    sortDesc_pairwise _ _, sortDesc_perm _ _, fun k => sortDesc_filter _ _ k, ?_⟩
  · intro hlen
    unfold searchProc
    rw [List.length_take, (sortDesc_perm (fun (r : SearchResult) => r.score)
      (searchProcAll idx fs q)).length_eq]
    omega
  · intro hlen
    unfold searchScan
    rw [List.length_take, (sortDesc_perm (fun (r : ScanResult) => r.score)
      (searchScanAll dp walk fs q)).length_eq]
    omega

/-- Claim C5 (witness): the limit bound at the concrete `exFs1` root with
limit 5. -/
theorem C5_witness : (1 ≤ 5) ∧ (searchProc exIdx1 exFs1 "a".data 5).length ≤ 5 :=
  ⟨by decide,
    (C5_ranking exIdx1 exFs1 "a".data 5 "d".data exWalk1 (by decide)).2.1⟩

/-! ### Claim C6 -/

/-- Claim C6 (counterexample): for the whitespace-only query `" "` the
whitespace-split term list is empty, so every document vacuously has zero
occurrences of every query term; yet direct-scan `search_docs` returns the
document `d/x.md` (content `"x y"`) with score 1, because it tests and
counts the whole query string `" "`.  The claimed non-match exclusion is
therefore false for direct scan on term-less queries. -/
theorem C6_counterexample :
    splitWs (lowerStr " ".data) = [] ∧
    (searchScan "d".data exWalk3 exFs3 " ".data 5).map
      (fun r => (r.file, r.score)) = [("d/x.md".data, 1)] := by
  refine ⟨by decide, by decide⟩

/-- Claim C6 (amended): for index-assisted `DocumentationProcessor.search`
the claim holds in full: every returned result has positive score, a
document all of whose query-term counts are zero never appears, a corpus
in which every readable document scores zero yields `[]` (not an error),
and the empty query always yields `[]`.  For direct-scan `search_docs` the
same exclusion and empty-result behavior holds provided the query has at
least one whitespace-split term; an empty or whitespace-only query instead
matches every document that contains the lowercased query string. -/
theorem C6_zero_match_behavior :
    (∀ idx fs q n, ∀ r ∈ searchProc idx fs q n, 0 < r.score) ∧
    (∀ idx fs q n (fi : FileInfo) (c : Str), fi ∈ idx.files →
      fs fi.path = some c →
      (∀ t ∈ splitWs (lowerStr q), countOccs t (lowerStr c) = 0) →
      ∀ r ∈ searchProc idx fs q n, r.file ≠ fi.path) ∧
    (∀ idx fs q n, (∀ fi ∈ idx.files, ∀ c, fs fi.path = some c →
        procScore q (lowerStr c) = 0) → searchProc idx fs q n = []) ∧
    (∀ idx fs n, searchProc idx fs [] n = []) ∧
    (∀ dp walk fs q n (e : Str × Int) (c : Str),
      splitWs (lowerStr q) ≠ [] → e ∈ walk →
      fs (joinPath dp e.1) = some c →
      (∀ t ∈ splitWs (lowerStr q), countOccs t (lowerStr c) = 0) →
      ∀ r ∈ searchScan dp walk fs q n, r.file ≠ joinPath dp e.1) ∧
    (∀ dp walk fs q n, splitWs (lowerStr q) ≠ [] →
      (∀ e ∈ walk, ∀ c, fs (joinPath dp e.1) = some c →
        ∀ t ∈ splitWs (lowerStr q), countOccs t (lowerStr c) = 0) →
      searchScan dp walk fs q n = []) := by
  have hpos : ∀ idx fs q n, ∀ r ∈ searchProc idx fs q n, 0 < r.score := by
    intro idx fs q n r hr
    have h1 : r ∈ searchProcAll idx fs q := mem_searchProc hr
    rw [searchProcAll_eq] at h1
    rcases List.mem_filterMap.mp h1 with ⟨fi, _, hfi⟩
    rcases gProc_some hfi with ⟨_, _, _, _, _, _, hs⟩
    exact hs
  have hprocEmpty : ∀ idx fs q n,
      (∀ fi ∈ idx.files, ∀ c, fs fi.path = some c →
        procScore q (lowerStr c) = 0) → searchProc idx fs q n = [] := by
    intro idx fs q n hz
    have hall : searchProcAll idx fs q = [] := by
      rw [searchProcAll_eq]
      rw [List.filterMap_eq_nil_iff]
      intro fi hfi
      unfold gProc
      cases hr : fs fi.path with
      | none => rfl
      | some c =>
        rw [Option.some_bind, if_neg]
        rw [hz fi hfi c hr]
        omega
    unfold searchProc
    rw [hall]
    simp [sortDesc]
  refine ⟨hpos, ?_, hprocEmpty, ?_, ?_, ?_⟩
  · intro idx fs q n fi c hfi hread hz r hr hfile
    have h1 : r ∈ searchProcAll idx fs q := mem_searchProc hr
    rw [searchProcAll_eq] at h1
    rcases List.mem_filterMap.mp h1 with ⟨fi2, _, hfi2⟩
    rcases gProc_some hfi2 with ⟨raw, hread2, hfile2, _, hscore2, _, hspos⟩
    have hpaths : fi2.path = fi.path := hfile2.symm.trans hfile
    rw [hpaths, hread] at hread2
    injection hread2 with hcc
    rw [hscore2, ← hcc, procScore_zero hz] at hspos
    exact absurd hspos (by omega)
  · intro idx fs n
    exact hprocEmpty idx fs [] n (fun fi _ c _ => rfl)
  · intro dp walk fs q n e c hne hmem hread hz r hr hfile
    have h1 : r ∈ searchScanAll dp walk fs q := mem_searchScan hr
    rw [searchScanAll_eq] at h1
    rcases List.mem_filterMap.mp h1 with ⟨e2, _, he2⟩
    rcases gScan_some he2 with ⟨_, c2, hread2, hfile2, _, _, hcont2⟩
    have hpaths : joinPath dp e2.1 = joinPath dp e.1 := hfile2.symm.trans hfile
    rw [hpaths, hread] at hread2
    injection hread2 with hcc
    rw [hcc] at hz
    rw [terms_zero_no_contains hne hz] at hcont2
    exact absurd hcont2 (by simp)
  · intro dp walk fs q n hne hz
    have hall : searchScanAll dp walk fs q = [] := by
      rw [searchScanAll_eq]
      rw [List.filterMap_eq_nil_iff]
      intro e he
      unfold gScan
      by_cases helig : eligible e.1 = true
      · rw [if_pos helig]
        cases hr : fs (joinPath dp e.1) with
        | none => rfl
        | some c =>
          rw [Option.some_bind, if_neg]
          rw [terms_zero_no_contains hne (hz e he c hr)]
          simp
      · rw [if_neg helig]
    unfold searchScan
    rw [hall]
    simp [sortDesc]

/-- Claim C6 (witness): over the `exFs1` root, the query `"zzz"` (whose one
term occurs nowhere) returns the empty result list from the index-assisted
search. -/
theorem C6_witness : searchProc exIdx1 exFs1 "zzz".data 5 = [] :=
  C6_zero_match_behavior.2.2.1 exIdx1 exFs1 "zzz".data 5 (by
    intro fi hfi c hc
    have hfiles : exIdx1.files = [exFi1] := by decide
    rw [hfiles] at hfi
    have hfi2 : fi = exFi1 := by simpa using hfi
    subst hfi2
    have hred : exFs1 exFi1.path = some "a b".data := by decide
    rw [hred] at hc
    injection hc with hcc
    subst hcc
    decide)

/-! ### Claim C7 -/

/-- Claim C7: the keyword extraction of `_process_file` returns exactly the
lowercased word tokens of length strictly greater than 3, ranked by raw
in-document frequency descending with ties in first-occurrence order (the
stable descending sort of the first-occurrence frequency table), truncated
to the top 20. -/
theorem C7_keyword_extraction (content : Str) :
    keywordsOf content = specKeywords content := by
  simp only [keywordsOf, specKeywords]
  rw [foldl_dictIncr_filter, pyDict_eq_specDict]

/-! ### Claim C8 -/

/-- Claim C8: a non-existent document root is created empty
(`os.makedirs`, lines 40-41), so the walk is empty: indexing returns the
empty index (`files = []`, `keywords = {}`) rather than an error, and a
subsequent search over that empty index returns the empty result list for
every query and limit. -/
theorem C8_missing_root_empty_index (dp : Str) (fs : Str → Option Str)
    (q : Str) (n : Nat) :
    indexDocumentation dp [] fs = PyIndex.mk [] [] ∧
    searchProc (PyIndex.mk [] []) fs q n = [] := by
  refine ⟨rfl, ?_⟩
  unfold searchProc searchProcAll sortDesc
  simp

/-! ### Claim C9 -/

theorem length_filterMap_eq_filter {α β : Type} (f : α → Option β)
    (l : List α) :
    (l.filterMap f).length = (l.filter (fun x => (f x).isSome)).length := by
  induction l with
  | nil => rfl
  | cons x xs ih =>
    rw [List.filterMap_cons, List.filter_cons]
    cases hf : f x with
    | none => simpa using ih
    | some b => simpa using ih

/-- Claim C9: a failed read (`none`, modelling a caught `open`/decode
exception) is non-fatal: indexing is a total function whose `files` list
contains exactly one record per eligible walk entry whose read succeeded,
in walk order — so one undecodable file among nine valid ones yields
exactly nine records. -/
theorem C9_read_failures_skipped (dp : Str) (walk : List (Str × Int))
    (fs : Str → Option Str) :
    (indexDocumentation dp walk fs).files = walk.filterMap (gIdx dp fs) ∧
    (indexDocumentation dp walk fs).files.length =
      (walk.filter
        (fun e => eligible e.1 && (fs (joinPath dp e.1)).isSome)).length := by
  refine ⟨indexDocumentation_files dp walk fs, ?_⟩
  rw [indexDocumentation_files, length_filterMap_eq_filter]
  congr 1
  apply List.filter_congr
  intro e _
  unfold gIdx
  by_cases helig : eligible e.1 = true
  · rw [if_pos helig, helig, Bool.true_and, Option.isSome_map']
  · have h2 : eligible e.1 = false := by simpa using helig
    rw [if_neg helig, h2, Bool.false_and]
    rfl

/-! ### Claim C10 -/

/-- Claim C10 (counterexample): posting lists are Python lists, not sets —
with the colliding paths `a/b.md` and `a_b.md` (both containing the word
`"word"`), the posting list of keyword `"word"` holds the id `a_b.md`
twice. -/
theorem C10_counterexample :
    (indexDocumentation "d".data exWalk4 exFs4).keywords =
      [("word".data, ["a_b.md".data, "a_b.md".data])] ∧
    ¬ (["a_b.md".data, "a_b.md".data] : List Str).Nodup := by
  refine ⟨by decide, by decide⟩

/-- Claim C10 (amended): after any indexing pass, every document id
appearing in any posting list corresponds to a document record present in
the index's `files` list; posting lists are, however, lists that may
contain duplicate ids when two distinct paths collide to one id (see the
counterexample). -/
theorem C10_postings_point_to_files (dp : Str) (walk : List (Str × Int))
    (fs : Str → Option Str) :
    ∀ kw ids, (kw, ids) ∈ (indexDocumentation dp walk fs).keywords →
      ∀ i ∈ ids, ∃ fi, fi ∈ (indexDocumentation dp walk fs).files ∧
        fi.id = i := by
  have h0 : idxInv (PyIndex.mk [] []) := by
    intro kw ids h
    simp at h
  exact foldl_idxStep_inv dp fs walk (PyIndex.mk [] []) h0

/-- Claim C10 (witness): the membership part at the concrete colliding
corpus: the duplicated id `a_b.md` in the posting list of `"word"` does
correspond to a record in `files`. -/
theorem C10_witness :
    ∃ fi, fi ∈ (indexDocumentation "d".data exWalk4 exFs4).files ∧
      fi.id = "a_b.md".data :=
  C10_postings_point_to_files "d".data exWalk4 exFs4 "word".data
    ["a_b.md".data, "a_b.md".data] (by decide) "a_b.md".data (by decide)

end DocAssist
